import Mathlib

/-!
Shallow embedding of the Bayesian-optimization core of `src/main.py`
(qt3uw/bayesopt-lab): parameter spaces with `normalize`/`denormalize`,
the Latin-hypercube design generator, the `SimpleBO` surrogate with its
UCB `suggest`/`observe` operations, and the optimization loop `run`.

Machine floats are modelled by exact rationals (`ℚ`); randomness is
modelled by an abstract generator structure `RNG` whose draws and
shuffles the source obtains from `np.random`; the scikit-learn Gaussian
process `fit`/`predict` pair is modelled by an abstract `predict` oracle
taking the fitted data `(X, y)` and a query point.  Python dicts are
modelled as association lists with last-insertion-wins lookup, matching
dict-comprehension semantics for duplicate keys.
-/

namespace BayesOpt

/-- `Parameter` dataclass of the source: a name and bounds `(low, high)`. -/
structure Parameter where
  name : String
  low : ℚ
  high : ℚ
deriving DecidableEq, Repr

/-- A Python dict `str -> float` as an association list in insertion order. -/
def Dict : Type := List (String × ℚ)

instance : DecidableEq Dict := by unfold Dict; infer_instance

instance : Append Dict := by unfold Dict; infer_instance

/-- Dict lookup: the *last* binding of a key wins, as in Python where a
later assignment to the same key overwrites the earlier one. -/
def dget : Dict → String → Option ℚ
  | [], _ => none
  | (k, v) :: rest, key =>
    match dget rest key with
    | some w => some w
    | none => if key = k then some v else none

/-- `normalize(params, physical)` of the source:
`[(physical[p.name] - p.bounds[0]) / (p.bounds[1] - p.bounds[0]) for p in params]`.
A missing key (Python `KeyError`) is modelled as `none`. -/
def normalize (params : List Parameter) (physical : Dict) : Option (List ℚ) :=
  match params with
  | [] => some []
  | p :: rest =>
    match dget physical p.name, normalize rest physical with
    | some v, some out => some ((v - p.low) / (p.high - p.low) :: out)
    | _, _ => none

/-- Helper for `denormalize`: builds the dict entries

`p.name: p.bounds[0] + float(unit[i]) * (p.bounds[1] - p.bounds[0])`

for the parameters `params` paired with indices `i, i+1, ...` into `unit`. -/
def denormAux (params : List Parameter) (unit : List ℚ) (i : ℕ) : Dict :=
  match params with
  | [] => []
  | p :: rest => (p.name, p.low + unit.getD i 0 * (p.high - p.low)) :: denormAux rest unit (i + 1)

/-- `denormalize(params, unit)` of the source: the dict
`{p.name: p.bounds[0] + float(unit[i]) * (p.bounds[1] - p.bounds[0]) for i, p in enumerate(params)}`. -/
def denormalize (params : List Parameter) (unit : List ℚ) : Dict :=
  denormAux params unit 0

/-- Abstract random generator over a state type `σ`, standing for the
`np.random` global stream: `seedState` models `np.random.seed`, `rand`
one uniform draw from `[0,1)`, and `perm n` the permutation of `n`
indices that `np.random.shuffle` applies. -/
structure RNG (σ : Type) where
  seedState : ℕ → σ
  rand : σ → ℚ × σ
  perm : ℕ → σ → List ℕ × σ

/-- The generator draws only values in `[0, 1)`. -/
def RNG.randInUnit {σ : Type} (g : RNG σ) : Prop :=
  ∀ s : σ, 0 ≤ (g.rand s).1 ∧ (g.rand s).1 < 1

/-- The generator's shuffles are genuine permutations of `0, …, n-1`. -/
def RNG.permValid {σ : Type} (g : RNG σ) : Prop :=
  ∀ (n : ℕ) (s : σ), ((g.perm n s).1).Perm (List.range n)

/-- `np.random.rand(n)`: `n` consecutive uniform draws. -/
def randList {σ : Type} (g : RNG σ) : ℕ → σ → List ℚ × σ
  | 0, s => ([], s)
  | n + 1, s =>
    let (x, s1) := g.rand s
    let (xs, s2) := randList g n s1
    (x :: xs, s2)

/-- `np.random.rand(rows, cols)`: a row-major matrix of uniform draws. -/
def randMatrix {σ : Type} (g : RNG σ) : ℕ → ℕ → σ → List (List ℚ) × σ
  | 0, _, s => ([], s)
  | r + 1, c, s =>
    let (row, s1) := randList g c s
    let (rows, s2) := randMatrix g r c s1
    (row :: rows, s2)

/-- `np.random.shuffle` applied with a given index permutation `p`:
element `i` of the result is element `p[i]` of the input. -/
def applyPerm (p : List ℕ) (l : List ℚ) : List ℚ :=
  p.map (fun i => l.getD i 0)

/-- One axis of the Latin-hypercube unit matrix:
`strata = (np.arange(n) + np.random.rand(n)) / n` followed by
`np.random.shuffle(strata)`. -/
def lhcAxis {σ : Type} (g : RNG σ) (n : ℕ) (s : σ) : List ℚ × σ :=
  let (us, s1) := randList g n s
  let strata := (List.range n).zipWith (fun (k : ℕ) (u : ℚ) => ((k : ℚ) + u) / n) us
  let (p, s2) := g.perm n s1
  (applyPerm p strata, s2)

/-- The columns `unit[:, 0], …, unit[:, dim-1]` of the Latin-hypercube
unit matrix, generated axis by axis as in the source's `for j in range(dim)`. -/
def lhcCols {σ : Type} (g : RNG σ) (n : ℕ) : ℕ → σ → List (List ℚ) × σ
  | 0, s => ([], s)
  | d + 1, s =>
    let (col, s1) := lhcAxis g n s
    let (cols, s2) := lhcCols g n d s1
    (col :: cols, s2)

/-- Row `i` of the unit matrix stored as columns `cols`. -/
def lhcRow (cols : List (List ℚ)) (i : ℕ) : List ℚ :=
  cols.map (fun col => col.getD i 0)

/-- `latin_hypercube(params, n)` of the source: build the `n × dim` unit
matrix column by column, then `[denormalize(params, unit[i]) for i in range(n)]`. -/
def latin_hypercube {σ : Type} (g : RNG σ) (params : List Parameter) (n : ℕ) (s : σ) :
    List Dict × σ :=
  let (cols, s1) := lhcCols g n params.length s
  ((List.range n).map (fun i => denormalize params (lhcRow cols i)), s1)

/-- `np.argmax` semantics, inner loop: current best index `bi` with value
`bv`, next index `i`; a strictly greater value replaces the best, so the
first occurrence of the maximum is kept. -/
def argmaxGo : List ℚ → ℕ → ℚ → ℕ → ℕ
  | [], bi, _, _ => bi
  | x :: xs, bi, bv, i => if bv < x then argmaxGo xs i x (i + 1) else argmaxGo xs bi bv (i + 1)

/-- `np.argmax`: index of the first occurrence of the maximum. -/
def argmax : List ℚ → ℕ
  | [] => 0
  | x :: xs => argmaxGo xs 0 x 1

/-- The data-holding state of a `SimpleBO` instance: the parameter space,
the exploration coefficient `beta`, and the parallel observation
sequences `X` and `y`.  The `GaussianProcessRegressor` member is modelled
separately by the abstract `predict` oracle fed with `(X, y)`. -/
structure BOState where
  parameters : List Parameter
  beta : ℚ
  X : List (List ℚ)
  y : List ℚ
deriving DecidableEq

/-- `SimpleBO.__init__(parameters)` with the default `beta = 2.0`. -/
def mkSimpleBO (parameters : List Parameter) : BOState :=
  { parameters := parameters, beta := 2, X := [], y := [] }

/-- `SimpleBO.observe(unit_x, objective)`: append to `X` and `y`. -/
def observe (st : BOState) (unit_x : List ℚ) (objective : ℚ) : BOState :=
  { st with X := st.X ++ [unit_x], y := st.y ++ [objective] }

/-- The fitted model's `predict(point, return_std=True)`, abstracting
`GaussianProcessRegressor.fit(X, y)` followed by `predict`: from the
fitted data `(X, y)` and a query point, a `(mean, std)` pair. -/
def Predict : Type := List (List ℚ) → List ℚ → List ℚ → ℚ × ℚ

/-- UCB scores `mean + beta * std` of all candidates under the model
fitted on `(X, y)`. -/
def ucbScores (predict : Predict) (st : BOState) (cands : List (List ℚ)) : List ℚ :=
  cands.map (fun c => (predict st.X st.y c).1 + st.beta * (predict st.X st.y c).2)

/-- `SimpleBO.suggest(candidates=256)`: below `dim + 1` observations,
return `np.random.rand(dim)`; otherwise fit on all of `(X, y)`, draw
`candidates` uniform points, score them by UCB and return the argmax. -/
def suggest {σ : Type} (g : RNG σ) (predict : Predict) (st : BOState) (s : σ)
    (candidates : ℕ := 256) : List ℚ × σ :=
  let dim := st.parameters.length
  if st.y.length < dim + 1 then
    randList g dim s
  else
    let (unit_candidates, s1) := randMatrix g candidates dim s
    let ucb := ucbScores predict st unit_candidates
    (unit_candidates.getD (argmax ucb) [], s1)

/-- The incumbent `best = {"params": None, "objective": -inf}` record;
`⊥` of `WithBot ℚ` stands for `-float("inf")`. -/
structure Best where
  params : Option Dict
  objective : WithBot ℚ
deriving DecidableEq

/-- The incumbent update of one trial: replace only under strict
`objective_value > best["objective"]`. -/
def stepBest (b : Best) (proposal : Dict) (v : ℚ) : Best :=
  if b.objective < (v : WithBot ℚ) then { params := some proposal, objective := (v : WithBot ℚ) }
  else b

/-- The incumbent after a whole sequence of `(proposal, objective)` trials,
starting from the source's initial record. -/
def foldBest (trials : List (Dict × ℚ)) : Best :=
  trials.foldl (fun b pv => stepBest b pv.1 pv.2) { params := none, objective := ⊥ }

/-- The loop state of one `run`: the surrogate, the generator state, the
incumbent, and the per-trial telemetry records `(params, objective)`
emitted so far, in trial order. -/
structure LoopState (σ : Type) where
  bo : BOState
  rng : σ
  best : Best
  trials : List (Dict × ℚ)

/-- The proposal of trial `t` together with the generator state after it:
`initial[t] if t < init_trials else denormalize(parameters, bo.suggest())`. -/
def propose {σ : Type} (g : RNG σ) (predict : Predict) (params : List Parameter)
    (initial : List Dict) (init_trials : ℕ) (t : ℕ) (st : LoopState σ) : Dict × σ :=
  if t < init_trials then (initial.getD t [], st.rng)
  else
    let (u, r) := suggest g predict st.bo st.rng
    (denormalize params u, r)

/-- One iteration of `run`'s `for t in range(max_trials)` body: pick the
proposal, evaluate it, observe the normalized point, and update the
incumbent.  An evaluator error propagates. -/
def runStep {σ ε : Type} (g : RNG σ) (predict : Predict) (params : List Parameter)
    (initial : List Dict) (init_trials : ℕ) (ev : Dict → Except ε ℚ) (t : ℕ)
    (st : LoopState σ) : Except ε (LoopState σ) :=
  match ev (propose g predict params initial init_trials t st).1 with
  | Except.error e => Except.error e
  | Except.ok v =>
    Except.ok
      { bo := observe st.bo
          ((normalize params (propose g predict params initial init_trials t st).1).getD []) v
        rng := (propose g predict params initial init_trials t st).2
        best := stepBest st.best (propose g predict params initial init_trials t st).1 v
        trials := st.trials ++ [((propose g predict params initial init_trials t st).1, v)] }

/-- The trial loop from trial index `t`, with `r` trials remaining. -/
def runFrom {σ ε : Type} (g : RNG σ) (predict : Predict) (params : List Parameter)
    (initial : List Dict) (init_trials : ℕ) (ev : Dict → Except ε ℚ) :
    ℕ → ℕ → LoopState σ → Except ε (LoopState σ)
  | _, 0, st => Except.ok st
  | t, r + 1, st =>
    match runStep g predict params initial init_trials ev t st with
    | Except.error e => Except.error e
    | Except.ok st1 => runFrom g predict params initial init_trials ev (t + 1) r st1

/-- `run(experiment, init_trials, max_trials, seed)` of the source: seed
the stream, precompute the Latin-hypercube design, and iterate the trial
body `max_trials` times starting from the `-inf` incumbent.  The optional
`stabilizer` hook is a side-effecting no-op for the loop's state and is
not modelled. -/
def run {σ ε : Type} (g : RNG σ) (predict : Predict) (params : List Parameter)
    (ev : Dict → Except ε ℚ) (init_trials max_trials seed : ℕ) :
    Except ε (LoopState σ) :=
  let s0 := g.seedState seed
  let bo := mkSimpleBO params
  let (initial, s1) := latin_hypercube g params init_trials s0
  runFrom g predict params initial init_trials ev 0 max_trials
    { bo := bo, rng := s1, best := { params := none, objective := ⊥ }, trials := [] }

/-- Extract the result of a run that cannot fail (`ε = Empty`). -/
def getOk {α : Type} : Except Empty α → α
  | Except.ok a => a
  | Except.error e => e.elim

/-- `run` with a total (never-raising) evaluator. -/
def runP {σ : Type} (g : RNG σ) (predict : Predict) (params : List Parameter)
    (ev : Dict → ℚ) (init_trials max_trials seed : ℕ) : LoopState σ :=
  getOk (run g predict params (fun p => Except.ok (ev p)) init_trials max_trials seed)

/-- Membership of a value in the `k`-th of `n` equal-width strata of `[0,1)`. -/
def inStratumB (n k : ℕ) (v : ℚ) : Bool :=
  decide ((k : ℚ) / n ≤ v) && decide (v < ((k : ℚ) + 1) / n)

/-- One call made against a `SimpleBO` instance within a run: an
`observe(unit_x, objective)` or a `suggest(candidates)`. -/
inductive BOOp
  | obs : List ℚ → ℚ → BOOp
  | sugg : ℕ → BOOp

/-- Apply a sequence of `observe`/`suggest` calls to a surrogate and a
generator state, in call order.  `suggest` reads the surrogate and
advances the generator; `observe` appends to the surrogate. -/
def applyOps {σ : Type} (g : RNG σ) (predict : Predict) :
    List BOOp → BOState × σ → BOState × σ
  | [], st => st
  | BOOp.obs x v :: rest, (bo, s) => applyOps g predict rest (observe bo x v, s)
  | BOOp.sugg c :: rest, (bo, s) =>
    applyOps g predict rest (bo, (suggest g predict bo s c).2)

/-- The arguments of the `observe` calls of an op sequence, in call order. -/
def obsArgs : List BOOp → List (List ℚ × ℚ)
  | [] => []
  | BOOp.obs x v :: rest => (x, v) :: obsArgs rest
  | BOOp.sugg _ :: rest => obsArgs rest

/-- A concrete deterministic generator used to instantiate theorems:
every draw is `1/2` and every shuffle is the identity permutation. -/
def constRNG : RNG Unit :=
  { seedState := fun _ => (), rand := fun _ => (1/2, ()), perm := fun n _ => (List.range n, ()) }

/-- A concrete predict oracle: mean `0`, std `0` everywhere. -/
def predictZero : Predict := fun _ _ _ => (0, 0)

/-- Componentwise closeness of two vectors within the spec's
floating-point tolerance `1e-9`. -/
def tolClose (v u : List ℚ) : Prop :=
  v.length = u.length ∧ ∀ i < v.length, |v.getD i 0 - u.getD i 0| ≤ 1 / 1000000000

instance (v u : List ℚ) : Decidable (tolClose v u) := by
  unfold tolClose; infer_instance

/-! ### Dictionary and round-trip lemmas -/

theorem dget_cons_ne (k : String) (v : ℚ) (d : Dict) (key : String) (h : key ≠ k) :
    dget ((k, v) :: d) key = dget d key := by
  have he : dget ((k, v) :: d) key =
      match dget d key with
      | some w => some w
      | none => if key = k then some v else none := rfl
  rw [he]
  cases dget d key
  · simp [h]
  · rfl

theorem dget_nil (key : String) : dget [] key = none := rfl

/-- The keys of the dict built by `denormAux` are the parameter names. -/
theorem denormAux_keys (params : List Parameter) (u : List ℚ) (i : ℕ) :
    (denormAux params u i).map Prod.fst = params.map Parameter.name := by
  induction params generalizing i with
  | nil => rfl
  | cons p rest ih => simp [denormAux, ih]

/-- A key absent from a dict's keys looks up to `none`. -/
theorem dget_eq_none_of_not_mem (d : Dict) (key : String)
    (h : key ∉ d.map Prod.fst) : dget d key = none := by
  induction d with
  | nil => rfl
  | cons kv rest ih =>
    simp only [List.map_cons, List.mem_cons] at h
    push_neg at h
    unfold dget
    rw [ih h.2]
    simp [h.1]

/-- Shifting the index base of `denormAux` by one drops the head of `unit`. -/
theorem denormAux_shift (params : List Parameter) (u0 : ℚ) (u : List ℚ) (i : ℕ) :
    denormAux params (u0 :: u) (i + 1) = denormAux params u i := by
  induction params generalizing i with
  | nil => rfl
  | cons p rest ih => simp [denormAux, ih]

/-- `normalize` ignores a dict entry whose key is not a parameter name. -/
theorem normalize_cons_irrelevant (params : List Parameter) (k : String) (v : ℚ) (d : Dict)
    (h : ∀ p ∈ params, p.name ≠ k) : normalize params ((k, v) :: d) = normalize params d := by
  induction params with
  | nil => rfl
  | cons p rest ih =>
    unfold normalize
    rw [dget_cons_ne _ _ _ _ (h p (by simp))]
    rw [ih (fun q hq => h q (by simp [hq]))]

/-- Exact round trip for parameter spaces with pairwise-distinct names and
non-degenerate bounds. -/
theorem normalize_denormAux (params : List Parameter) (u : List ℚ)
    (hnd : (params.map Parameter.name).Nodup) (hb : ∀ p ∈ params, p.low < p.high)
    (hl : u.length = params.length) :
    normalize params (denormalize params u) = some u := by
  induction params generalizing u with
  | nil =>
    cases u with
    | nil => rfl
    | cons u0 urest => simp at hl
  | cons p rest ih =>
    cases u with
    | nil => simp at hl
    | cons u0 urest =>
      simp only [List.map_cons, List.nodup_cons] at hnd
      have hpb := hb p (by simp)
      have hΔ : p.high - p.low ≠ 0 := ne_of_gt (by linarith)
      have hrest : denormAux rest (u0 :: urest) 1 = denormalize rest urest := by
        have := denormAux_shift rest u0 urest 0
        simpa [denormalize] using this
      have hkeys : dget (denormalize rest urest) p.name = none := by
        apply dget_eq_none_of_not_mem
        unfold denormalize
        rw [denormAux_keys]
        exact hnd.1
      unfold denormalize denormAux
      rw [hrest]
      unfold normalize
      have hget : dget ((p.name, p.low + (u0 :: urest).getD 0 0 * (p.high - p.low)) ::
          denormalize rest urest) p.name = some (p.low + u0 * (p.high - p.low)) := by
        unfold dget
        rw [hkeys]
        simp [List.getD]
      rw [hget]
      have hrest2 : normalize rest ((p.name, p.low + (u0 :: urest).getD 0 0 * (p.high - p.low)) ::
          denormalize rest urest) = normalize rest (denormalize rest urest) := by
        apply normalize_cons_irrelevant
        intro q hq
        intro hqe
        exact hnd.1 (hqe ▸ (List.mem_map_of_mem Parameter.name hq))
      rw [hrest2, ih urest hnd.2 (fun q hq => hb q (by simp [hq])) (by simpa using hl)]
      have hq : (p.low + u0 * (p.high - p.low) - p.low) / (p.high - p.low) = u0 := by
        field_simp
      show some ((p.low + u0 * (p.high - p.low) - p.low) / (p.high - p.low) :: urest) =
        some (u0 :: urest)
      rw [hq]

/-! ### Generator draw lemmas -/

theorem randList_length {σ : Type} (g : RNG σ) (n : ℕ) (s : σ) :
    (randList g n s).1.length = n := by
  induction n generalizing s with
  | zero => rfl
  | succ m ih => simp [randList, ih]

theorem randList_mem {σ : Type} (g : RNG σ) (hg : g.randInUnit) (n : ℕ) (s : σ) :
    ∀ x ∈ (randList g n s).1, 0 ≤ x ∧ x < 1 := by
  induction n generalizing s with
  | zero => intro x hx; simp [randList] at hx
  | succ m ih =>
    intro x hx
    simp only [randList, List.mem_cons] at hx
    rcases hx with h | h
    · exact h ▸ hg s
    · exact ih _ x h

theorem randMatrix_length {σ : Type} (g : RNG σ) (r c : ℕ) (s : σ) :
    (randMatrix g r c s).1.length = r := by
  induction r generalizing s with
  | zero => rfl
  | succ m ih => simp [randMatrix, ih]

theorem randMatrix_rows {σ : Type} (g : RNG σ) (hg : g.randInUnit) (r c : ℕ) (s : σ) :
    ∀ row ∈ (randMatrix g r c s).1, row.length = c ∧ ∀ x ∈ row, 0 ≤ x ∧ x < 1 := by
  induction r generalizing s with
  | zero => intro row hr; simp [randMatrix] at hr
  | succ m ih =>
    intro row hr
    simp only [randMatrix, List.mem_cons] at hr
    rcases hr with h | h
    · exact h ▸ ⟨randList_length g c _, randList_mem g hg c _⟩
    · exact ih _ row h

/-! ### `argmax` specification: first occurrence of the maximum -/

theorem argmaxGo_spec (l : List ℚ) : ∀ (pre : List ℚ) (bi : ℕ) (bv : ℚ),
    bi < pre.length →
    (pre ++ l).getD bi 0 = bv →
    (∀ m < pre.length, (pre ++ l).getD m 0 ≤ bv) →
    (∀ m < bi, (pre ++ l).getD m 0 < bv) →
    argmaxGo l bi bv pre.length < (pre ++ l).length ∧
      (∀ m < (pre ++ l).length,
        (pre ++ l).getD m 0 ≤ (pre ++ l).getD (argmaxGo l bi bv pre.length) 0) ∧
      (∀ m < argmaxGo l bi bv pre.length,
        (pre ++ l).getD m 0 < (pre ++ l).getD (argmaxGo l bi bv pre.length) 0) := by
  induction l with
  | nil =>
    intro pre bi bv h1 h2 h3 h4
    refine ⟨by simpa using h1, ?_, ?_⟩
    · intro m hm
      rw [show argmaxGo [] bi bv pre.length = bi from rfl, h2]
      exact h3 m (by simpa using hm)
    · intro m hm
      rw [show argmaxGo [] bi bv pre.length = bi from rfl, h2]
      exact h4 m hm
  | cons x xs ih =>
    intro pre bi bv h1 h2 h3 h4
    have hassoc : pre ++ x :: xs = (pre ++ [x]) ++ xs := by simp
    have hlen : (pre ++ [x]).length = pre.length + 1 := by simp
    have hgetx : (pre ++ x :: xs).getD pre.length 0 = x := by
      rw [List.getD_eq_getElem?_getD, List.getElem?_append_right (le_refl pre.length)]
      simp
    have hgo : argmaxGo (x :: xs) bi bv pre.length =
        if bv < x then argmaxGo xs pre.length x (pre.length + 1)
        else argmaxGo xs bi bv (pre.length + 1) := rfl
    by_cases hx : bv < x
    · rw [hgo, if_pos hx]
      have := ih (pre ++ [x]) pre.length x
        (by simp) (by rw [← hassoc]; exact hgetx)
        (by
          intro m hm
          rw [← hassoc]
          rw [hlen] at hm
          rcases Nat.lt_succ_iff_lt_or_eq.mp hm with hm' | hm'
          · exact le_of_lt (lt_of_le_of_lt (h3 m hm') hx)
          · rw [hm', hgetx])
        (by
          intro m hm
          rw [← hassoc]
          exact lt_of_le_of_lt (h3 m hm) hx)
      rw [← hassoc, hlen] at this
      exact this
    · rw [hgo, if_neg hx]
      have := ih (pre ++ [x]) bi bv
        (by rw [hlen]; exact Nat.lt_succ_of_lt h1)
        (by rw [← hassoc]; exact h2)
        (by
          intro m hm
          rw [← hassoc]
          rw [hlen] at hm
          rcases Nat.lt_succ_iff_lt_or_eq.mp hm with hm' | hm'
          · exact h3 m hm'
          · rw [hm', hgetx]; exact le_of_not_lt hx)
        (by intro m hm; rw [← hassoc]; exact h4 m hm)
      rw [← hassoc, hlen] at this
      exact this

theorem argmax_spec (l : List ℚ) (hl : l ≠ []) :
    argmax l < l.length ∧
      (∀ m < l.length, l.getD m 0 ≤ l.getD (argmax l) 0) ∧
      (∀ m < argmax l, l.getD m 0 < l.getD (argmax l) 0) := by
  cases l with
  | nil => exact absurd rfl hl
  | cons x xs =>
    have := argmaxGo_spec xs [x] 0 x (by simp) (by simp [List.getD])
      (by
        intro m hm
        have hm0 : m = 0 := Nat.lt_one_iff.mp (by simpa using hm)
        subst hm0
        simp [List.getD])
      (by intro m hm; exact absurd hm (Nat.not_lt_zero m))
    simpa [argmax] using this

/-! ### Latin-hypercube lemmas -/

theorem map_getD_range (l : List ℚ) :
    (List.range l.length).map (fun i => l.getD i 0) = l := by
  apply List.ext_getElem (by simp)
  intro i h1 h2
  simp [List.getD_eq_getElem?_getD, List.getElem?_eq_getElem h2]

/-- Applying a genuine index permutation rearranges the list. -/
theorem applyPerm_perm (p : List ℕ) (l : List ℚ) (h : p.Perm (List.range l.length)) :
    (applyPerm p l).Perm l := by
  have h2 := h.map (fun i => l.getD i 0)
  rw [map_getD_range] at h2
  exact h2

theorem decideAnd (p q : Prop) [Decidable p] [Decidable q] :
    decide (p ∧ q) = (decide p && decide q) := by
  by_cases hp : p <;> by_cases hq : q <;> simp [hp, hq]

/-- The stratum offset `(lo + u)/n` with `u ∈ [0,1)` lies in stratum `k`
exactly when `lo = k`. -/
theorem inStratumB_shift (n k lo : ℕ) (hk : k < n) (u : ℚ) (h0 : 0 ≤ u) (h1 : u < 1) :
    inStratumB n k (((lo : ℚ) + u) / n) = decide (lo = k) := by
  have hn : (0 : ℚ) < (n : ℚ) := by exact_mod_cast lt_of_le_of_lt (Nat.zero_le k) hk
  have hiff : ((k : ℚ) / n ≤ ((lo : ℚ) + u) / n ∧ ((lo : ℚ) + u) / n < ((k : ℚ) + 1) / n)
      ↔ lo = k := by
    rw [div_le_div_iff_of_pos_right hn, div_lt_div_iff_of_pos_right hn]
    constructor
    · rintro ⟨ha, hb⟩
      have h2 : (k : ℚ) < lo + 1 := lt_of_le_of_lt ha (by linarith)
      have h3 : (lo : ℚ) < k + 1 := by linarith
      have h4 : k < lo + 1 := by exact_mod_cast h2
      have h5 : lo < k + 1 := by exact_mod_cast h3
      omega
    · rintro rfl
      exact ⟨by linarith, by linarith⟩
  unfold inStratumB
  rw [← decideAnd]
  exact decide_eq_decide.mpr hiff

/-- Counting values in stratum `k` among the offsets built on indices
`lo, lo+1, …`: one if `k` is covered, zero otherwise. -/
theorem count_strata (n k : ℕ) (hk : k < n) : ∀ (lo : ℕ) (us : List ℚ),
    (∀ u ∈ us, 0 ≤ u ∧ u < 1) →
    (((List.range' lo us.length).zipWith (fun (i : ℕ) (u : ℚ) => ((i : ℚ) + u) / n) us).countP
      (inStratumB n k)) = if lo ≤ k ∧ k < lo + us.length then 1 else 0 := by
  intro lo us
  induction us generalizing lo with
  | nil =>
    intro _
    simp only [List.length_nil, List.zipWith_nil_right, List.countP_nil, Nat.add_zero]
    split_ifs <;> omega
  | cons u us ih =>
    intro hmem
    have hhead := inStratumB_shift n k lo hk u (hmem u (by simp)).1 (hmem u (by simp)).2
    rw [show (u :: us).length = us.length + 1 from rfl, List.range'_succ lo us.length 1]
    rw [List.zipWith_cons_cons, List.countP_cons, hhead]
    rw [ih (lo + 1) (fun x hx => hmem x (by simp [hx]))]
    simp only [decide_eq_true_eq]
    split_ifs <;> omega

/-- The axis produced by `lhcAxis` is a permutation of the stratified
offsets `(k + u_k)/n` with draws `u_k ∈ [0,1)`. -/
theorem lhcAxis_spec {σ : Type} (g : RNG σ) (hr : g.randInUnit) (hp : g.permValid)
    (n : ℕ) (s : σ) :
    ∃ us : List ℚ, us.length = n ∧ (∀ u ∈ us, 0 ≤ u ∧ u < 1) ∧
      ((lhcAxis g n s).1).Perm
        ((List.range n).zipWith (fun (k : ℕ) (u : ℚ) => ((k : ℚ) + u) / n) us) := by
  refine ⟨(randList g n s).1, randList_length g n s, randList_mem g hr n s, ?_⟩
  show (applyPerm (g.perm n (randList g n s).2).1
      ((List.range n).zipWith (fun (k : ℕ) (u : ℚ) => ((k : ℚ) + u) / n)
        (randList g n s).1)).Perm _
  apply applyPerm_perm
  have hlen : ((List.range n).zipWith (fun (k : ℕ) (u : ℚ) => ((k : ℚ) + u) / n)
      (randList g n s).1).length = n := by
    simp [randList_length]
  rw [hlen]
  exact hp n _

/-- Each axis contains exactly one value per stratum. -/
theorem lhcAxis_count {σ : Type} (g : RNG σ) (hr : g.randInUnit) (hp : g.permValid)
    (n k : ℕ) (hk : k < n) (s : σ) :
    ((lhcAxis g n s).1).countP (inStratumB n k) = 1 := by
  obtain ⟨us, hlen, hmem, hperm⟩ := lhcAxis_spec g hr hp n s
  rw [hperm.countP_eq]
  have h0 := count_strata n k hk 0 us hmem
  rw [hlen] at h0
  rw [List.range_eq_range' n, h0]
  simp [hk]

theorem lhcCols_length {σ : Type} (g : RNG σ) (n : ℕ) :
    ∀ (d : ℕ) (s : σ), ((lhcCols g n d s).1).length = d := by
  intro d
  induction d with
  | zero => intro s; rfl
  | succ m ih => intro s; simp [lhcCols, ih]

/-- Every column of the unit matrix is an `lhcAxis` output for some
intermediate generator state. -/
theorem lhcCols_getD {σ : Type} (g : RNG σ) (n : ℕ) :
    ∀ (d j : ℕ) (s : σ), j < d →
      ∃ s0 : σ, ((lhcCols g n d s).1).getD j [] = (lhcAxis g n s0).1 := by
  intro d
  induction d with
  | zero => intro j s hj; exact absurd hj (Nat.not_lt_zero j)
  | succ m ih =>
    intro j s hj
    cases j with
    | zero => exact ⟨s, rfl⟩
    | succ i =>
      obtain ⟨s0, h0⟩ := ih i (lhcAxis g n s).2 (Nat.lt_of_succ_lt_succ hj)
      exact ⟨s0, h0⟩

/-! ### Incumbent lemmas -/

theorem stepBest_objective (b : Best) (p : Dict) (v : ℚ) :
    (stepBest b p v).objective = b.objective ⊔ (v : WithBot ℚ) := by
  unfold stepBest
  by_cases h : b.objective < (v : WithBot ℚ)
  · rw [if_pos h]
    exact (sup_eq_right.mpr (le_of_lt h)).symm
  · rw [if_neg h]
    exact (sup_eq_left.mpr (le_of_not_lt h)).symm

theorem foldl_stepBest_objective : ∀ (l : List (Dict × ℚ)) (b : Best),
    (l.foldl (fun b pv => stepBest b pv.1 pv.2) b).objective
      = b.objective ⊔ (l.map Prod.snd).maximum := by
  intro l
  induction l with
  | nil => intro b; simp
  | cons pv rest ih =>
    intro b
    rw [List.foldl_cons, ih, stepBest_objective, List.map_cons,
      List.maximum_cons, sup_assoc]

theorem foldl_stepBest_const : ∀ (l : List (Dict × ℚ)) (b : Best),
    (∀ m < l.length, (((l.map Prod.snd).getD m 0 : ℚ) : WithBot ℚ) ≤ b.objective) →
    l.foldl (fun b pv => stepBest b pv.1 pv.2) b = b := by
  intro l
  induction l with
  | nil => intro b _; rfl
  | cons pv rest ih =>
    intro b hle
    have h0 : ((pv.2 : ℚ) : WithBot ℚ) ≤ b.objective := hle 0 (Nat.succ_pos _)
    have hstep : stepBest b pv.1 pv.2 = b := by
      unfold stepBest
      rw [if_neg (not_lt_of_le h0)]
    rw [List.foldl_cons, hstep]
    exact ih b (fun m hm => hle (m + 1) (Nat.succ_lt_succ hm))

theorem foldl_stepBest_first : ∀ (l : List (Dict × ℚ)) (b : Best) (j : ℕ),
    j < l.length →
    b.objective < (((l.map Prod.snd).getD j 0 : ℚ) : WithBot ℚ) →
    (∀ m < j, (l.map Prod.snd).getD m 0 < (l.map Prod.snd).getD j 0) →
    (∀ m < l.length, (l.map Prod.snd).getD m 0 ≤ (l.map Prod.snd).getD j 0) →
    (l.foldl (fun b pv => stepBest b pv.1 pv.2) b).params
      = some (l.getD j (([] : Dict), 0)).1 := by
  intro l
  induction l with
  | nil => intro b j hj; exact absurd hj (Nat.not_lt_zero j)
  | cons pv rest ih =>
    intro b j hj hb hfirst hle
    rw [List.foldl_cons]
    cases j with
    | zero =>
      have hstep : stepBest b pv.1 pv.2
          = { params := some pv.1, objective := (pv.2 : WithBot ℚ) } := by
        unfold stepBest
        rw [if_pos (show b.objective < (pv.2 : WithBot ℚ) from hb)]
      have hconst : ∀ m < rest.length,
          (((rest.map Prod.snd).getD m 0 : ℚ) : WithBot ℚ) ≤
            (Best.mk (some pv.1) (pv.2 : WithBot ℚ)).objective := by
        intro m hm
        have h5 : ((rest.map Prod.snd).getD m 0 : ℚ) ≤ pv.2 :=
          hle (m + 1) (Nat.succ_lt_succ hm)
        show (((rest.map Prod.snd).getD m 0 : ℚ) : WithBot ℚ) ≤ ((pv.2 : ℚ) : WithBot ℚ)
        exact_mod_cast h5
      rw [hstep, foldl_stepBest_const rest _ hconst]
      rfl
    | succ m =>
      apply (ih (stepBest b pv.1 pv.2) m (Nat.lt_of_succ_lt_succ hj) ?_ ?_ ?_).trans rfl
      · rw [stepBest_objective]
        apply sup_lt_iff.mpr
        constructor
        · exact hb
        · exact_mod_cast hfirst 0 (Nat.succ_pos m)
      · intro i hi
        exact hfirst (i + 1) (Nat.succ_lt_succ hi)
      · intro i hi
        exact hle (i + 1) (Nat.succ_lt_succ hi)

theorem foldBest_append (l : List (Dict × ℚ)) (pv : Dict × ℚ) :
    foldBest (l ++ [pv]) = stepBest (foldBest l) pv.1 pv.2 := by
  unfold foldBest
  rw [List.foldl_append]
  rfl

/-! ### Loop-step and loop lemmas -/

/-- During the seed phase the proposal is the precomputed design point and
the generator state is untouched. -/
theorem propose_design {σ : Type} (g : RNG σ) (predict : Predict) (params : List Parameter)
    (initial : List Dict) (init_trials t : ℕ) (st : LoopState σ) (h : t < init_trials) :
    propose g predict params initial init_trials t st = (initial.getD t [], st.rng) := by
  unfold propose
  rw [if_pos h]

theorem runStep_ok_elim {σ ε : Type} {g : RNG σ} {predict : Predict} {params : List Parameter}
    {initial : List Dict} {init_trials : ℕ} {ev : Dict → Except ε ℚ} {t : ℕ}
    {st st' : LoopState σ}
    (h : runStep g predict params initial init_trials ev t st = Except.ok st') :
    ∃ v, ev (propose g predict params initial init_trials t st).1 = Except.ok v ∧
      st' = { bo := observe st.bo
                ((normalize params (propose g predict params initial init_trials t st).1).getD []) v
              rng := (propose g predict params initial init_trials t st).2
              best := stepBest st.best (propose g predict params initial init_trials t st).1 v
              trials := st.trials ++
                [((propose g predict params initial init_trials t st).1, v)] } := by
  unfold runStep at h
  cases hev : ev (propose g predict params initial init_trials t st).1 with
  | error e =>
    rw [hev] at h
    have h2 : (Except.error e : Except ε (LoopState σ)) = Except.ok st' := h
    cases h2
  | ok v =>
    rw [hev] at h
    have h2 : Except.ok
        { bo := observe st.bo
            ((normalize params (propose g predict params initial init_trials t st).1).getD []) v
          rng := (propose g predict params initial init_trials t st).2
          best := stepBest st.best (propose g predict params initial init_trials t st).1 v
          trials := st.trials ++
            [((propose g predict params initial init_trials t st).1, v)] }
        = Except.ok st' := h
    injection h2 with h3
    exact ⟨v, rfl, h3.symm⟩

theorem runStep_error_iff {σ ε : Type} {g : RNG σ} {predict : Predict} {params : List Parameter}
    {initial : List Dict} {init_trials : ℕ} {ev : Dict → Except ε ℚ} {t : ℕ}
    {st : LoopState σ} {e : ε} :
    runStep g predict params initial init_trials ev t st = Except.error e ↔
      ev (propose g predict params initial init_trials t st).1 = Except.error e := by
  unfold runStep
  cases hev : ev (propose g predict params initial init_trials t st).1 with
  | error e0 => simp
  | ok v => simp

/-- Invariants preserved along a successful run: trial and observation
counts each grow by the number of trials executed, and the incumbent stays
the strict-improvement fold of the trial records. -/
theorem runFrom_ok_inv {σ ε : Type} (g : RNG σ) (predict : Predict) (params : List Parameter)
    (initial : List Dict) (init_trials : ℕ) (ev : Dict → Except ε ℚ) :
    ∀ (r t : ℕ) (st st' : LoopState σ),
      runFrom g predict params initial init_trials ev t r st = Except.ok st' →
      st'.trials.length = st.trials.length + r ∧
      st'.bo.X.length = st.bo.X.length + r ∧
      st'.bo.y.length = st.bo.y.length + r ∧
      (st.best = foldBest st.trials → st'.best = foldBest st'.trials) := by
  intro r
  induction r with
  | zero =>
    intro t st st' h
    cases h
    exact ⟨rfl, rfl, rfl, fun hb => hb⟩
  | succ m ih =>
    intro t st st' h
    unfold runFrom at h
    cases hstep : runStep g predict params initial init_trials ev t st with
    | error e =>
      rw [hstep] at h
      have h9 : (Except.error e : Except ε (LoopState σ)) = Except.ok st' := h
      cases h9
    | ok st1 =>
      rw [hstep] at h
      have h8 : runFrom g predict params initial init_trials ev (t + 1) m st1
          = Except.ok st' := h
      obtain ⟨v, _, hshape⟩ := runStep_ok_elim hstep
      obtain ⟨h1, h2, h3, h4⟩ := ih (t + 1) st1 st' h8
      refine ⟨?_, ?_, ?_, ?_⟩
      · rw [h1, hshape]; simp [observe]; omega
      · rw [h2, hshape]; simp [observe]; omega
      · rw [h3, hshape]; simp [observe]; omega
      · intro hb
        apply h4
        rw [hshape]
        show stepBest st.best _ v = foldBest (st.trials ++ [(_, v)])
        rw [foldBest_append, ← hb]

/-- With a never-failing evaluator the loop always completes. -/
theorem runFrom_total {σ ε : Type} (g : RNG σ) (predict : Predict) (params : List Parameter)
    (initial : List Dict) (init_trials : ℕ) (evP : Dict → ℚ) :
    ∀ (r t : ℕ) (st : LoopState σ), ∃ st',
      runFrom g predict params initial init_trials
          (fun p => (Except.ok (evP p) : Except ε ℚ)) t r st
        = Except.ok st' := by
  intro r
  induction r with
  | zero => intro t st; exact ⟨st, rfl⟩
  | succ m ih =>
    intro t st
    obtain ⟨st', h⟩ := ih (t + 1)
      { bo := observe st.bo
          ((normalize params (propose g predict params initial init_trials t st).1).getD [])
          (evP (propose g predict params initial init_trials t st).1)
        rng := (propose g predict params initial init_trials t st).2
        best := stepBest st.best (propose g predict params initial init_trials t st).1
          (evP (propose g predict params initial init_trials t st).1)
        trials := st.trials ++
          [((propose g predict params initial init_trials t st).1,
            evP (propose g predict params initial init_trials t st).1)] }
    exact ⟨st', h⟩

/-- A failing run decomposes into a successful prefix of `j < r` trials
followed by a failing step. -/
theorem runFrom_error_elim {σ ε : Type} (g : RNG σ) (predict : Predict) (params : List Parameter)
    (initial : List Dict) (init_trials : ℕ) (ev : Dict → Except ε ℚ) :
    ∀ (r t : ℕ) (st : LoopState σ) (e : ε),
      runFrom g predict params initial init_trials ev t r st = Except.error e →
      ∃ j, j < r ∧ ∃ st1,
        runFrom g predict params initial init_trials ev t j st = Except.ok st1 ∧
        runStep g predict params initial init_trials ev (t + j) st1 = Except.error e := by
  intro r
  induction r with
  | zero => intro t st e h; cases h
  | succ m ih =>
    intro t st e h
    unfold runFrom at h
    cases hstep : runStep g predict params initial init_trials ev t st with
    | error e0 =>
      rw [hstep] at h
      have h9 : (Except.error e0 : Except ε (LoopState σ)) = Except.error e := h
      injection h9 with h10
      subst h10
      exact ⟨0, Nat.succ_pos m, st, rfl, by rw [Nat.add_zero]; exact hstep⟩
    | ok st1 =>
      rw [hstep] at h
      have h8 : runFrom g predict params initial init_trials ev (t + 1) m st1
          = Except.error e := h
      obtain ⟨j, hj, st2, hpre, hfail⟩ := ih (t + 1) st1 e h8
      refine ⟨j + 1, Nat.succ_lt_succ hj, st2, ?_, ?_⟩
      · show runFrom g predict params initial init_trials ev t (j + 1) st = Except.ok st2
        unfold runFrom
        rw [hstep]
        exact hpre
      · rw [show t + (j + 1) = t + 1 + j by omega]
        exact hfail

/-- Unfolding `run` to the loop with the seeded stream and precomputed design. -/
theorem run_eq_runFrom {σ ε : Type} (g : RNG σ) (predict : Predict) (params : List Parameter)
    (ev : Dict → Except ε ℚ) (init_trials max_trials seed : ℕ) :
    run g predict params ev init_trials max_trials seed =
      runFrom g predict params (latin_hypercube g params init_trials (g.seedState seed)).1
        init_trials ev 0 max_trials
        { bo := mkSimpleBO params
          rng := (latin_hypercube g params init_trials (g.seedState seed)).2
          best := { params := none, objective := ⊥ }
          trials := [] } := rfl

theorem getD_map_snd (l : List (Dict × ℚ)) (m : ℕ) (h : m < l.length) :
    (l.map Prod.snd).getD m 0 = (l.getD m (([] : Dict), 0)).2 := by
  rw [List.getD_eq_getElem _ _ (by simpa using h), List.getD_eq_getElem _ _ h, List.getElem_map]

/-- During the seed phase the whole loop is independent of the regression
oracle: `suggest` is never consulted. -/
theorem runFrom_design_predict_eq {σ ε : Type} (g : RNG σ) (pr1 pr2 : Predict)
    (params : List Parameter) (initial : List Dict) (init_trials : ℕ)
    (ev : Dict → Except ε ℚ) :
    ∀ (r t : ℕ) (st : LoopState σ), t + r ≤ init_trials →
      runFrom g pr1 params initial init_trials ev t r st
        = runFrom g pr2 params initial init_trials ev t r st := by
  intro r
  induction r with
  | zero => intro t st _; rfl
  | succ m ih =>
    intro t st h
    have hstep : runStep g pr1 params initial init_trials ev t st
        = runStep g pr2 params initial init_trials ev t st := by
      unfold runStep
      rw [propose_design g pr1 params initial init_trials t st (by omega),
        propose_design g pr2 params initial init_trials t st (by omega)]
    unfold runFrom
    rw [hstep]
    cases runStep g pr2 params initial init_trials ev t st with
    | error e => rfl
    | ok st1 => exact ih (t + 1) st1 (by omega)

/-- During the seed phase the trial records are exactly the design points
with their evaluations, in design order. -/
theorem runFrom_design_trials {σ ε : Type} (g : RNG σ) (pr : Predict)
    (params : List Parameter) (initial : List Dict) (init_trials : ℕ) (evP : Dict → ℚ) :
    ∀ (r t : ℕ) (st st' : LoopState σ), t + r ≤ init_trials →
      runFrom g pr params initial init_trials
          (fun p => (Except.ok (evP p) : Except ε ℚ)) t r st = Except.ok st' →
      st'.trials = st.trials ++ (List.range' t r).map
        (fun i => (initial.getD i [], evP (initial.getD i []))) := by
  intro r
  induction r with
  | zero =>
    intro t st st' _ h
    cases h
    simp
  | succ m ih =>
    intro t st st' hle h
    have hstep : runStep g pr params initial init_trials
        (fun p => (Except.ok (evP p) : Except ε ℚ)) t st = Except.ok
          { bo := observe st.bo ((normalize params (initial.getD t [])).getD [])
              (evP (initial.getD t []))
            rng := st.rng
            best := stepBest st.best (initial.getD t []) (evP (initial.getD t []))
            trials := st.trials ++ [(initial.getD t [], evP (initial.getD t []))] } := by
      unfold runStep
      rw [propose_design g pr params initial init_trials t st (by omega)]
    unfold runFrom at h
    rw [hstep] at h
    have h8 := ih (t + 1)
      { bo := observe st.bo ((normalize params (initial.getD t [])).getD [])
          (evP (initial.getD t []))
        rng := st.rng
        best := stepBest st.best (initial.getD t []) (evP (initial.getD t []))
        trials := st.trials ++ [(initial.getD t [], evP (initial.getD t []))] }
      st' (by omega) h
    rw [h8, List.range'_succ t m 1, List.map_cons]
    simp

theorem obsArgs_append (l1 l2 : List BOOp) :
    obsArgs (l1 ++ l2) = obsArgs l1 ++ obsArgs l2 := by
  induction l1 with
  | nil => rfl
  | cons op rest ih =>
    cases op with
    | obs x v => simp [obsArgs, ih]
    | sugg c => simp [obsArgs, ih]

/-- The surrogate's data after a call sequence: `X` and `y` are the
initial data extended by exactly the observed pairs, in call order;
`suggest` calls leave them untouched. -/
theorem applyOps_spec {σ : Type} (g : RNG σ) (pr : Predict) :
    ∀ (ops : List BOOp) (bo : BOState) (s : σ),
      (applyOps g pr ops (bo, s)).1.X = bo.X ++ (obsArgs ops).map Prod.fst ∧
      (applyOps g pr ops (bo, s)).1.y = bo.y ++ (obsArgs ops).map Prod.snd := by
  intro ops
  induction ops with
  | nil => intro bo s; constructor <;> simp [applyOps, obsArgs]
  | cons op rest ih =>
    intro bo s
    cases op with
    | obs x v =>
      obtain ⟨h1, h2⟩ := ih (observe bo x v) s
      constructor
      · show (applyOps g pr rest (observe bo x v, s)).1.X = _
        rw [h1]
        simp [observe, obsArgs]
      · show (applyOps g pr rest (observe bo x v, s)).1.y = _
        rw [h2]
        simp [observe, obsArgs]
    | sugg c =>
      obtain ⟨h1, h2⟩ := ih bo (suggest g pr bo s c).2
      constructor
      · show (applyOps g pr rest (bo, (suggest g pr bo s c).2)).1.X = _
        rw [h1]
        simp [obsArgs]
      · show (applyOps g pr rest (bo, (suggest g pr bo s c).2)).1.y = _
        rw [h2]
        simp [obsArgs]

/-! ### Claim theorems -/

/-- C1 (amended): for every parameter space whose parameters have
pairwise-distinct names and all satisfy `low < high`, and every normalized
vector `u ∈ [0,1]^dim` with one coordinate per parameter,
`normalize(params, denormalize(params, u))` equals `u` exactly — in
particular within the `1e-9` tolerance; both functions are pure functions
of their arguments. -/
theorem normalize_denormalize_roundtrip (params : List Parameter) (u : List ℚ)
    (hnd : (params.map Parameter.name).Nodup)
    (hb : ∀ p ∈ params, p.low < p.high)
    (hu : ∀ x ∈ u, 0 ≤ x ∧ x ≤ 1)
    (hl : u.length = params.length) :
    normalize params (denormalize params u) = some u ∧ tolClose u u :=
  ⟨normalize_denormAux params u hnd hb hl,
    rfl, fun i _ => by rw [sub_self, abs_zero]; norm_num⟩

theorem normalize_denormalize_roundtrip_witness :
    normalize [⟨"x", 0, 10⟩] (denormalize [⟨"x", 0, 10⟩] [1/2]) = some [1/2] ∧
      tolClose [1/2] [1/2] :=
  normalize_denormalize_roundtrip [⟨"x", 0, 10⟩] [1/2] (by decide) (by decide)
    (by intro x hx; simp at hx; subst hx; norm_num) rfl

/-- C1 counterexample: the claim as stated fails for a parameter space
with a repeated name (both bounds non-degenerate): with
`params = [("a", (0,1)), ("a", (0,2))]` and `u = [1/2, 1/2]`, the later
dict entry overwrites the earlier one, the round trip yields `[1, 1/2]`,
and the first coordinate misses `u` by `1/2 > 1e-9`. -/
theorem roundtrip_fails_duplicate_names :
    (∀ p ∈ ([⟨"a", 0, 1⟩, ⟨"a", 0, 2⟩] : List Parameter), p.low < p.high) ∧
    (∀ x ∈ ([1/2, 1/2] : List ℚ), 0 ≤ x ∧ x ≤ 1) ∧
    normalize [⟨"a", 0, 1⟩, ⟨"a", 0, 2⟩]
      (denormalize [⟨"a", 0, 1⟩, ⟨"a", 0, 2⟩] [1/2, 1/2]) = some [1, 1/2] ∧
    ¬ tolClose [1, 1/2] [1/2, 1/2] := by
  refine ⟨by decide, ?_, ?_, ?_⟩
  · intro x hx
    simp at hx
    subst hx
    norm_num
  · norm_num [normalize, denormalize, denormAux, dget]
  · intro h
    have h2 := h.2 0 (by norm_num)
    rw [show ([1, 1/2] : List ℚ).getD 0 0 - ([1/2, 1/2] : List ℚ).getD 0 0 = 1/2
      by norm_num [List.getD]] at h2
    rw [abs_of_nonneg (by norm_num)] at h2
    norm_num at h2

/-- C3: with fewer than `dim + 1` accumulated observations, `suggest`
returns the next `dim` uniform draws — a point in `[0,1]^dim` — and its
result does not depend on the regression oracle at all (the fit is never
invoked); otherwise it returns the UCB argmax over candidates scored by
the model fitted on all accumulated `(X, y)` pairs. -/
theorem suggest_cold_start {σ : Type} (g : RNG σ) (st : BOState) (s : σ) :
    (st.y.length < st.parameters.length + 1 →
      (∀ (pr1 pr2 : Predict) (c1 c2 : ℕ), suggest g pr1 st s c1 = suggest g pr2 st s c2) ∧
      (∀ pr : Predict, suggest g pr st s = randList g st.parameters.length s) ∧
      (g.randInUnit →
        (randList g st.parameters.length s).1.length = st.parameters.length ∧
        ∀ x ∈ (randList g st.parameters.length s).1, 0 ≤ x ∧ x < 1)) ∧
    (st.parameters.length + 1 ≤ st.y.length → ∀ (pr : Predict) (c : ℕ),
      suggest g pr st s c =
        ((randMatrix g c st.parameters.length s).1.getD
          (argmax (ucbScores pr st (randMatrix g c st.parameters.length s).1)) [],
         (randMatrix g c st.parameters.length s).2)) := by
  constructor
  · intro hcold
    have hbranch : ∀ (pr : Predict) (c : ℕ),
        suggest g pr st s c = randList g st.parameters.length s := by
      intro pr c
      show (if st.y.length < st.parameters.length + 1 then randList g st.parameters.length s
        else ((randMatrix g c st.parameters.length s).1.getD
          (argmax (ucbScores pr st (randMatrix g c st.parameters.length s).1)) [],
          (randMatrix g c st.parameters.length s).2)) = randList g st.parameters.length s
      rw [if_pos hcold]
    exact ⟨fun pr1 pr2 c1 c2 => (hbranch pr1 c1).trans (hbranch pr2 c2).symm,
      fun pr => hbranch pr 256,
      fun hr => ⟨randList_length g _ s, randList_mem g hr _ s⟩⟩
  · intro hfit pr c
    show (if st.y.length < st.parameters.length + 1 then randList g st.parameters.length s
      else ((randMatrix g c st.parameters.length s).1.getD
        (argmax (ucbScores pr st (randMatrix g c st.parameters.length s).1)) [],
        (randMatrix g c st.parameters.length s).2)) = _
    rw [if_neg (not_lt.mpr hfit)]

theorem suggest_cold_start_witness :
    (∀ (pr1 pr2 : Predict) (c1 c2 : ℕ),
      suggest constRNG pr1 (mkSimpleBO [⟨"x", 0, 1⟩]) () c1
        = suggest constRNG pr2 (mkSimpleBO [⟨"x", 0, 1⟩]) () c2) ∧
    (∀ pr : Predict, suggest constRNG pr (mkSimpleBO [⟨"x", 0, 1⟩]) ()
      = randList constRNG (mkSimpleBO [⟨"x", 0, 1⟩]).parameters.length ()) ∧
    (constRNG.randInUnit →
      (randList constRNG (mkSimpleBO [⟨"x", 0, 1⟩]).parameters.length ()).1.length
        = (mkSimpleBO [⟨"x", 0, 1⟩]).parameters.length ∧
      ∀ x ∈ (randList constRNG (mkSimpleBO [⟨"x", 0, 1⟩]).parameters.length ()).1,
        0 ≤ x ∧ x < 1) :=
  (suggest_cold_start constRNG (mkSimpleBO [⟨"x", 0, 1⟩]) ()).1 (by decide)

/-- C8: with at least `dim + 1` observations, `suggest` draws
`n_candidates` uniform points in `[0,1]^dim` (the source default for
`n_candidates` is 256), scores each as `mean + beta * std` from the model
fitted on `(X, y)`, and returns the candidate at the `argmax` of the
scores — the maximum, with ties broken toward the lowest index. -/
theorem suggest_ucb_argmax {σ : Type} (g : RNG σ) (pr : Predict) (st : BOState) (s : σ)
    (c : ℕ) (hfit : st.parameters.length + 1 ≤ st.y.length) (hc : 0 < c) :
    suggest g pr st s c =
      ((randMatrix g c st.parameters.length s).1.getD
        (argmax (ucbScores pr st (randMatrix g c st.parameters.length s).1)) [],
       (randMatrix g c st.parameters.length s).2) ∧
    (randMatrix g c st.parameters.length s).1.length = c ∧
    (g.randInUnit → ∀ row ∈ (randMatrix g c st.parameters.length s).1,
      row.length = st.parameters.length ∧ ∀ x ∈ row, 0 ≤ x ∧ x < 1) ∧
    ucbScores pr st (randMatrix g c st.parameters.length s).1
      = ((randMatrix g c st.parameters.length s).1).map
          (fun cd => (pr st.X st.y cd).1 + st.beta * (pr st.X st.y cd).2) ∧
    suggest g pr st s = suggest g pr st s 256 ∧
    argmax (ucbScores pr st (randMatrix g c st.parameters.length s).1) < c ∧
    (∀ m < c, (ucbScores pr st (randMatrix g c st.parameters.length s).1).getD m 0
      ≤ (ucbScores pr st (randMatrix g c st.parameters.length s).1).getD
          (argmax (ucbScores pr st (randMatrix g c st.parameters.length s).1)) 0) ∧
    (∀ m < argmax (ucbScores pr st (randMatrix g c st.parameters.length s).1),
      (ucbScores pr st (randMatrix g c st.parameters.length s).1).getD m 0
        < (ucbScores pr st (randMatrix g c st.parameters.length s).1).getD
            (argmax (ucbScores pr st (randMatrix g c st.parameters.length s).1)) 0) := by
  have hlen : (ucbScores pr st (randMatrix g c st.parameters.length s).1).length = c := by
    unfold ucbScores
    rw [List.length_map, randMatrix_length]
  have hne : ucbScores pr st (randMatrix g c st.parameters.length s).1 ≠ [] := by
    intro hnil
    rw [hnil] at hlen
    exact absurd hlen.symm (Nat.ne_of_gt hc)
  obtain ⟨h1, h2, h3⟩ := argmax_spec _ hne
  rw [hlen] at h1
  refine ⟨?_, randMatrix_length g c _ s, fun hr => randMatrix_rows g hr c _ s, rfl, rfl,
    h1, ?_, h3⟩
  · show (if st.y.length < st.parameters.length + 1 then randList g st.parameters.length s
      else ((randMatrix g c st.parameters.length s).1.getD
        (argmax (ucbScores pr st (randMatrix g c st.parameters.length s).1)) [],
        (randMatrix g c st.parameters.length s).2)) = _
    rw [if_neg (not_lt.mpr hfit)]
  · intro m hm
    exact h2 m (by rw [hlen]; exact hm)

theorem suggest_ucb_argmax_witness :
    (suggest constRNG predictZero ⟨[⟨"x", 0, 1⟩], 2, [[0], [1]], [0, 1]⟩ () 2 =
      ((randMatrix constRNG 2 1 ()).1.getD
        (argmax (ucbScores predictZero ⟨[⟨"x", 0, 1⟩], 2, [[0], [1]], [0, 1]⟩
          (randMatrix constRNG 2 1 ()).1)) [],
       (randMatrix constRNG 2 1 ()).2)) ∧ (1 + 1 ≤ 2 ∧ 0 < 2) := by
  have h := suggest_ucb_argmax constRNG predictZero
    ⟨[⟨"x", 0, 1⟩], 2, [[0], [1]], [0, 1]⟩ () 2 (by decide) (by decide)
  exact ⟨h.1, by decide, by decide⟩

/-- C2: a completed run of `max_trials` trials returns an incumbent whose
objective is the maximum objective over all trials; the incumbent starts
at `(-inf, no params)` and is the strict-improvement fold of the trial
sequence, so the first-seen maximum wins ties. -/
theorem run_incumbent_max {σ ε : Type} (g : RNG σ) (pr : Predict) (params : List Parameter)
    (ev : Dict → Except ε ℚ) (init_trials max_trials seed : ℕ) (st' : LoopState σ)
    (h : run g pr params ev init_trials max_trials seed = Except.ok st') :
    st'.trials.length = max_trials ∧
    foldBest [] = { params := none, objective := (⊥ : WithBot ℚ) } ∧
    st'.best = foldBest st'.trials ∧
    st'.best.objective = (st'.trials.map Prod.snd).maximum ∧
    (0 < max_trials →
      st'.best.params
        = some (st'.trials.getD (argmax (st'.trials.map Prod.snd)) (([] : Dict), 0)).1 ∧
      ∀ m < argmax (st'.trials.map Prod.snd),
        (st'.trials.map Prod.snd).getD m 0
          < (st'.trials.map Prod.snd).getD (argmax (st'.trials.map Prod.snd)) 0) := by
  rw [run_eq_runFrom] at h
  obtain ⟨hlen, hX, hy, hbestinv⟩ := runFrom_ok_inv g pr params
    (latin_hypercube g params init_trials (g.seedState seed)).1 init_trials ev
    max_trials 0 _ st' h
  have hlen' : st'.trials.length = max_trials := by simpa using hlen
  have hbest : st'.best = foldBest st'.trials := hbestinv rfl
  refine ⟨hlen', rfl, hbest, ?_, ?_⟩
  · rw [hbest]
    unfold foldBest
    rw [foldl_stepBest_objective]
    exact bot_sup_eq _
  · intro hpos
    have hne : st'.trials.map Prod.snd ≠ [] := by
      intro hnil
      have h9 := congrArg List.length hnil
      rw [List.length_map, hlen'] at h9
      simp at h9
      omega
    obtain ⟨h1, h2, h3⟩ := argmax_spec _ hne
    rw [List.length_map] at h1
    refine ⟨?_, h3⟩
    rw [hbest]
    unfold foldBest
    exact foldl_stepBest_first st'.trials _ _ h1 (WithBot.bot_lt_coe _) h3
      (fun m hm => h2 m (by rw [List.length_map]; exact hm))

theorem run_incumbent_max_witness :
    ({ bo := { parameters := [], beta := 2, X := [[], []], y := [5, 5] }
       rng := ()
       best := { params := some [], objective := ((5 : ℚ) : WithBot ℚ) }
       trials := [([], 5), ([], 5)] } : LoopState Unit).trials.length = 2 ∧
    foldBest [] = { params := none, objective := (⊥ : WithBot ℚ) } ∧
    ({ bo := { parameters := [], beta := 2, X := [[], []], y := [5, 5] }
       rng := ()
       best := { params := some [], objective := ((5 : ℚ) : WithBot ℚ) }
       trials := [([], 5), ([], 5)] } : LoopState Unit).best
      = foldBest [([], 5), ([], 5)] ∧
    ((5 : ℚ) : WithBot ℚ) = (([([], 5), ([], 5)] : List (Dict × ℚ)).map Prod.snd).maximum ∧
    (0 < 2 →
      some ([] : Dict) = some ((([([], 5), ([], 5)] : List (Dict × ℚ)).getD
        (argmax (([([], 5), ([], 5)] : List (Dict × ℚ)).map Prod.snd)) (([] : Dict), 0)).1) ∧
      ∀ m < argmax (([([], 5), ([], 5)] : List (Dict × ℚ)).map Prod.snd),
        (([([], 5), ([], 5)] : List (Dict × ℚ)).map Prod.snd).getD m 0
          < (([([], 5), ([], 5)] : List (Dict × ℚ)).map Prod.snd).getD
              (argmax (([([], 5), ([], 5)] : List (Dict × ℚ)).map Prod.snd)) 0) := by
  have h := run_incumbent_max constRNG predictZero []
    (fun _ => (Except.ok 5 : Except Empty ℚ)) 1 2 0
    { bo := { parameters := [], beta := 2, X := [[], []], y := [5, 5] }
      rng := ()
      best := { params := some [], objective := ((5 : ℚ) : WithBot ℚ) }
      trials := [([], 5), ([], 5)] }
    (by set_option maxRecDepth 4000 in rfl)
  exact h

/-- C4: each axis of the Latin-hypercube unit matrix is a permutation of
the stratified offsets `(k + u_k)/n` with independent draws `u_k ∈ [0,1)`,
hence contains exactly one value in each of the `n` equal-width strata of
`[0,1]`; the physical output is the row-wise denormalization of this
matrix, and `n = 0` yields an empty sequence. -/
theorem latin_hypercube_stratified {σ : Type} (g : RNG σ) (hr : g.randInUnit)
    (hp : g.permValid) (params : List Parameter) (n : ℕ) (s : σ) :
    (latin_hypercube g params n s).1 = (List.range n).map
        (fun i => denormalize params (lhcRow (lhcCols g n params.length s).1 i)) ∧
    (lhcCols g n params.length s).1.length = params.length ∧
    (∀ j < params.length, ∃ us : List ℚ, us.length = n ∧ (∀ u ∈ us, 0 ≤ u ∧ u < 1) ∧
      ((lhcCols g n params.length s).1.getD j []).Perm
        ((List.range n).zipWith (fun (k : ℕ) (u : ℚ) => ((k : ℚ) + u) / n) us)) ∧
    (∀ j < params.length, ∀ k < n,
      ((lhcCols g n params.length s).1.getD j []).countP (inStratumB n k) = 1) ∧
    (latin_hypercube g params 0 s).1 = [] := by
  refine ⟨rfl, lhcCols_length g n params.length s, ?_, ?_, rfl⟩
  · intro j hj
    obtain ⟨s0, h0⟩ := lhcCols_getD g n params.length j s hj
    rw [h0]
    exact lhcAxis_spec g hr hp n s0
  · intro j hj k hk
    obtain ⟨s0, h0⟩ := lhcCols_getD g n params.length j s hj
    rw [h0]
    exact lhcAxis_count g hr hp n k hk s0

theorem latin_hypercube_stratified_witness :
    (latin_hypercube constRNG [⟨"x", 0, 10⟩] 3 ()).1 = (List.range 3).map
        (fun i => denormalize [⟨"x", 0, 10⟩]
          (lhcRow (lhcCols constRNG 3 ([⟨"x", 0, 10⟩] : List Parameter).length ()).1 i)) ∧
    (lhcCols constRNG 3 ([⟨"x", 0, 10⟩] : List Parameter).length ()).1.length
      = ([⟨"x", 0, 10⟩] : List Parameter).length ∧
    (∀ j < ([⟨"x", 0, 10⟩] : List Parameter).length, ∃ us : List ℚ,
      us.length = 3 ∧ (∀ u ∈ us, 0 ≤ u ∧ u < 1) ∧
      ((lhcCols constRNG 3 ([⟨"x", 0, 10⟩] : List Parameter).length ()).1.getD j []).Perm
        ((List.range 3).zipWith (fun (k : ℕ) (u : ℚ) => ((k : ℚ) + u) / 3) us)) ∧
    (∀ j < ([⟨"x", 0, 10⟩] : List Parameter).length, ∀ k < 3,
      ((lhcCols constRNG 3 ([⟨"x", 0, 10⟩] : List Parameter).length ()).1.getD j []).countP
        (inStratumB 3 k) = 1) ∧
    (latin_hypercube constRNG [⟨"x", 0, 10⟩] 0 ()).1 = [] :=
  latin_hypercube_stratified constRNG
    (fun _ => ⟨by norm_num [constRNG], by norm_num [constRNG]⟩)
    (fun n _ => List.Perm.refl (List.range n))
    [⟨"x", 0, 10⟩] 3 ()

/-- C5 (amended): the code performs no configuration validation at
construction or first use; a degenerate configuration is never rejected
before trials run.  With a non-raising evaluator the run completes all
`max_trials` trials and returns an incumbent whenever the trials it
executes stay on code paths the program completes: a non-empty parameter
space whose bounds all satisfy `low ≠ high` (in particular `low > high`),
or any space — including the empty one — when `max_trials ≤ init_trials`
so the regression fit is never reached.  (In the real code, an empty
space additionally makes the fit raise at the first acquisition-phase
trial, and `low = high` makes the first `normalize` raise — both after
trials have already run, never at construction or first use.) -/
theorem run_never_rejects {σ : Type} (g : RNG σ) (pr : Predict) (params : List Parameter)
    (evP : Dict → ℚ) (init_trials max_trials seed : ℕ)
    (hnz : ∀ p ∈ params, p.low ≠ p.high)
    (hfaithful : params ≠ [] ∨ max_trials ≤ init_trials) :
    run g pr params (fun p => (Except.ok (evP p) : Except Empty ℚ)) init_trials max_trials seed
      = Except.ok (runP g pr params evP init_trials max_trials seed) ∧
    (runP g pr params evP init_trials max_trials seed).trials.length = max_trials := by
  obtain ⟨st', h⟩ := runFrom_total (ε := Empty) g pr params
    (latin_hypercube g params init_trials (g.seedState seed)).1 init_trials evP max_trials 0
    { bo := mkSimpleBO params
      rng := (latin_hypercube g params init_trials (g.seedState seed)).2
      best := { params := none, objective := ⊥ }
      trials := [] }
  have hrun : run g pr params (fun p => (Except.ok (evP p) : Except Empty ℚ))
      init_trials max_trials seed = Except.ok st' := by
    rw [run_eq_runFrom]
    exact h
  have hP : runP g pr params evP init_trials max_trials seed = st' := by
    unfold runP
    rw [hrun]
    rfl
  obtain ⟨hlen, _, _, _⟩ := runFrom_ok_inv g pr params
    (latin_hypercube g params init_trials (g.seedState seed)).1 init_trials _
    max_trials 0 _ st' h
  rw [hP]
  exact ⟨hrun, by simpa using hlen⟩

theorem run_never_rejects_witness :
    run constRNG predictZero [⟨"a", 1, 0⟩]
        (fun p => (Except.ok ((dget p "a").getD 0) : Except Empty ℚ)) 1 1 0
      = Except.ok (runP constRNG predictZero [⟨"a", 1, 0⟩]
          (fun d => (dget d "a").getD 0) 1 1 0) ∧
    (runP constRNG predictZero [⟨"a", 1, 0⟩]
      (fun d => (dget d "a").getD 0) 1 1 0).trials.length = 1 :=
  run_never_rejects constRNG predictZero [⟨"a", 1, 0⟩]
    (fun d => (dget d "a").getD 0) 1 1 0 (by decide) (Or.inl (by decide))

/-- C5 counterexample: the claim as stated fails on the code — degenerate
configurations are not rejected at construction or first use, and trials
do run.  With an empty parameter space and `max_trials ≤ init_trials`
(so the regression fit is never reached) the run completes both trials
and returns an incumbent with empty params; with bounds
`low = 1 > 0 = high` the run likewise completes its trial. -/
theorem run_accepts_degenerate_config :
    (runP constRNG predictZero [] (fun _ => 7) 2 2 0).trials.length = 2 ∧
    (runP constRNG predictZero [] (fun _ => 7) 2 2 0).best.params = some [] ∧
    (runP constRNG predictZero [⟨"a", 1, 0⟩]
      (fun d => (dget d "a").getD 0) 1 1 0).trials.length = 1 :=
  ⟨by set_option maxRecDepth 4000 in rfl,
   by set_option maxRecDepth 4000 in rfl,
   by set_option maxRecDepth 8000 in rfl⟩

/-- C6: if `run` propagates an error `e`, then no incumbent is returned,
and there is a trial index `j < max_trials` at which the evaluator raised
exactly `e` on the proposed point; the preceding `j` trials completed
normally and the surrogate holds exactly `j` observations — the failed
trial added none. -/
theorem run_error_propagation {σ ε : Type} (g : RNG σ) (pr : Predict) (params : List Parameter)
    (ev : Dict → Except ε ℚ) (init_trials max_trials seed : ℕ) (e : ε)
    (h : run g pr params ev init_trials max_trials seed = Except.error e) :
    (∀ st', run g pr params ev init_trials max_trials seed ≠ Except.ok st') ∧
    ∃ j, j < max_trials ∧ ∃ st1,
      runFrom g pr params (latin_hypercube g params init_trials (g.seedState seed)).1
          init_trials ev 0 j
          { bo := mkSimpleBO params
            rng := (latin_hypercube g params init_trials (g.seedState seed)).2
            best := { params := none, objective := ⊥ }
            trials := [] } = Except.ok st1 ∧
      st1.trials.length = j ∧ st1.bo.X.length = j ∧ st1.bo.y.length = j ∧
      ev (propose g pr params (latin_hypercube g params init_trials (g.seedState seed)).1
        init_trials j st1).1 = Except.error e := by
  constructor
  · intro st' hok
    rw [h] at hok
    exact Except.noConfusion hok
  · rw [run_eq_runFrom] at h
    obtain ⟨j, hj, st1, hpre, hfail⟩ := runFrom_error_elim g pr params
      (latin_hypercube g params init_trials (g.seedState seed)).1 init_trials ev
      max_trials 0 _ e h
    obtain ⟨hlen, hX, hy, _⟩ := runFrom_ok_inv g pr params
      (latin_hypercube g params init_trials (g.seedState seed)).1 init_trials ev
      j 0 _ st1 hpre
    rw [show 0 + j = j from by omega] at hfail
    exact ⟨j, hj, st1, hpre, by simpa using hlen, by simpa [mkSimpleBO] using hX,
      by simpa [mkSimpleBO] using hy, runStep_error_iff.mp hfail⟩

theorem run_error_propagation_witness :
    (∀ st', run constRNG predictZero []
      (fun _ => (Except.error "boom" : Except String ℚ)) 1 1 0 ≠ Except.ok st') ∧
    ∃ j, j < 1 ∧ ∃ st1 : LoopState Unit,
      runFrom constRNG predictZero []
          (latin_hypercube constRNG [] 1 (constRNG.seedState 0)).1 1
          (fun _ => (Except.error "boom" : Except String ℚ)) 0 j
          { bo := mkSimpleBO []
            rng := (latin_hypercube constRNG [] 1 (constRNG.seedState 0)).2
            best := { params := none, objective := ⊥ }
            trials := [] } = Except.ok st1 ∧
      st1.trials.length = j ∧ st1.bo.X.length = j ∧ st1.bo.y.length = j ∧
      (fun (_ : Dict) => (Except.error "boom" : Except String ℚ))
        (propose constRNG predictZero []
          (latin_hypercube constRNG [] 1 (constRNG.seedState 0)).1 1 j st1).1
        = Except.error "boom" :=
  run_error_propagation constRNG predictZero []
    (fun _ => (Except.error "boom" : Except String ℚ)) 1 1 0 "boom" rfl

/-- C7: two runs with the same generator, seed, trial counts and
evaluators that agree on every input produce identical results — the same
candidate sequence, observation sequence, surrogate data and incumbent.
The single stream is seeded once at run start and consumed design-first,
then trial by trial, as `run` is defined. -/
theorem run_deterministic {σ ε : Type} (g : RNG σ) (pr : Predict) (params : List Parameter)
    (ev1 ev2 : Dict → Except ε ℚ) (init_trials max_trials seed : ℕ)
    (hev : ∀ p, ev1 p = ev2 p) :
    run g pr params ev1 init_trials max_trials seed
      = run g pr params ev2 init_trials max_trials seed := by
  rw [funext hev]

theorem run_deterministic_witness :
    run constRNG predictZero [] (fun _ => (Except.ok 5 : Except Empty ℚ)) 1 2 0
      = run constRNG predictZero [] (fun _ => (Except.ok 5 : Except Empty ℚ)) 1 2 0 :=
  run_deterministic constRNG predictZero [] _ _ 1 2 0 (fun _ => rfl)

/-- C9: over any sequence of `observe`/`suggest` calls starting from a
fresh `SimpleBO`, `X` and `y` are exactly the first and second components
of the observed pairs in call order (hence always of equal length, with
the `i`-th entries the `i`-th observe call's arguments), and extending the
call sequence only appends — existing entries are never mutated or
removed. -/
theorem surrogate_append_only {σ : Type} (g : RNG σ) (pr : Predict) (params : List Parameter)
    (ops more : List BOOp) (s : σ) :
    (applyOps g pr ops (mkSimpleBO params, s)).1.X = (obsArgs ops).map Prod.fst ∧
    (applyOps g pr ops (mkSimpleBO params, s)).1.y = (obsArgs ops).map Prod.snd ∧
    (applyOps g pr ops (mkSimpleBO params, s)).1.X.length
      = (applyOps g pr ops (mkSimpleBO params, s)).1.y.length ∧
    (applyOps g pr (ops ++ more) (mkSimpleBO params, s)).1.X
      = (applyOps g pr ops (mkSimpleBO params, s)).1.X ++ (obsArgs more).map Prod.fst ∧
    (applyOps g pr (ops ++ more) (mkSimpleBO params, s)).1.y
      = (applyOps g pr ops (mkSimpleBO params, s)).1.y ++ (obsArgs more).map Prod.snd := by
  obtain ⟨h1, h2⟩ := applyOps_spec g pr ops (mkSimpleBO params) s
  obtain ⟨h3, h4⟩ := applyOps_spec g pr (ops ++ more) (mkSimpleBO params) s
  have e1 : (applyOps g pr ops (mkSimpleBO params, s)).1.X = (obsArgs ops).map Prod.fst := by
    rw [h1]
    simp [mkSimpleBO]
  have e2 : (applyOps g pr ops (mkSimpleBO params, s)).1.y = (obsArgs ops).map Prod.snd := by
    rw [h2]
    simp [mkSimpleBO]
  refine ⟨e1, e2, ?_, ?_, ?_⟩
  · rw [e1, e2, List.length_map, List.length_map]
  · rw [h3, e1, obsArgs_append, List.map_append]
    simp [mkSimpleBO]
  · rw [h4, e2, obsArgs_append, List.map_append]
    simp [mkSimpleBO]

/-- C10: when `init_trials` exceeds `max_trials`, `run` with a
non-raising evaluator completes normally after exactly `max_trials`
trials, every candidate is the corresponding precomputed Latin-hypercube
design point in design order, and the result does not depend on the
regression oracle — `suggest`'s model path is never consulted. -/
theorem run_all_trials_from_design {σ : Type} (g : RNG σ) (pr : Predict)
    (params : List Parameter) (evP : Dict → ℚ) (init_trials max_trials seed : ℕ)
    (h : max_trials < init_trials) :
    run g pr params (fun p => (Except.ok (evP p) : Except Empty ℚ)) init_trials max_trials seed
      = Except.ok (runP g pr params evP init_trials max_trials seed) ∧
    (runP g pr params evP init_trials max_trials seed).trials
      = (List.range max_trials).map (fun i =>
          (((latin_hypercube g params init_trials (g.seedState seed)).1).getD i [],
           evP (((latin_hypercube g params init_trials (g.seedState seed)).1).getD i []))) ∧
    (runP g pr params evP init_trials max_trials seed).trials.length = max_trials ∧
    (∀ pr2 : Predict, runP g pr params evP init_trials max_trials seed
      = runP g pr2 params evP init_trials max_trials seed) := by
  obtain ⟨st', hok⟩ := runFrom_total (ε := Empty) g pr params
    (latin_hypercube g params init_trials (g.seedState seed)).1 init_trials evP max_trials 0
    { bo := mkSimpleBO params
      rng := (latin_hypercube g params init_trials (g.seedState seed)).2
      best := { params := none, objective := ⊥ }
      trials := [] }
  have hrun : run g pr params (fun p => (Except.ok (evP p) : Except Empty ℚ))
      init_trials max_trials seed = Except.ok st' := by
    rw [run_eq_runFrom]
    exact hok
  have hP : runP g pr params evP init_trials max_trials seed = st' := by
    unfold runP
    rw [hrun]
    rfl
  have htr := runFrom_design_trials g pr params
    (latin_hypercube g params init_trials (g.seedState seed)).1 init_trials evP
    max_trials 0 _ st' (by omega) hok
  refine ⟨hP ▸ hrun, ?_, ?_, ?_⟩
  · rw [hP, htr, List.range_eq_range']
    simp
  · rw [hP, htr]
    simp
  · intro pr2
    unfold runP
    rw [run_eq_runFrom, run_eq_runFrom]
    rw [runFrom_design_predict_eq g pr pr2 params
      (latin_hypercube g params init_trials (g.seedState seed)).1 init_trials _
      max_trials 0 _ (by omega)]

theorem run_all_trials_from_design_witness :
    run constRNG predictZero [] (fun _ => (Except.ok 5 : Except Empty ℚ)) 2 1 0
      = Except.ok (runP constRNG predictZero [] (fun _ => (5 : ℚ)) 2 1 0) ∧
    (runP constRNG predictZero [] (fun _ => (5 : ℚ)) 2 1 0).trials
      = (List.range 1).map (fun i =>
          (((latin_hypercube constRNG [] 2 (constRNG.seedState 0)).1).getD i [],
           (fun (_ : Dict) => (5 : ℚ))
             (((latin_hypercube constRNG [] 2 (constRNG.seedState 0)).1).getD i []))) ∧
    (runP constRNG predictZero [] (fun _ => (5 : ℚ)) 2 1 0).trials.length = 1 ∧
    (∀ pr2 : Predict, runP constRNG predictZero [] (fun _ => (5 : ℚ)) 2 1 0
      = runP constRNG pr2 [] (fun _ => (5 : ℚ)) 2 1 0) :=
  run_all_trials_from_design constRNG predictZero [] (fun _ => (5 : ℚ)) 2 1 0 (by omega)

end BayesOpt
